import Mathlib

/-!
Shallow embedding of `src/home_robot/home_robot/motion/pinocchio_ik_solver.py`.

Numeric values are modelled as exact reals (ℝ); the pure index-shuffling of the
Configuration Mapper is kept polymorphic in the entry type so that concrete
computations can run over ℚ.  External collaborators (the pinocchio kinematic
model, scipy rotations, `np.random.randn`) are abstracted as oracle parameters,
exactly at the call boundaries the source uses them.
-/

namespace HomeRobot

open Matrix

/-- numpy-style indexed write: negative indices wrap from the end
(`q_out[-1] = v` writes the last entry).  Out-of-range writes are modelled as
no-ops; theorems carry in-bounds hypotheses where that matters. -/
def npSet {α : Type} (l : List α) (j : ℤ) (v : α) : List α :=
  l.set (if j < 0 then ((l.length : ℤ) + j).toNat else j.toNat) v

/-- Data of `PinocchioIKSolver.__init__` that the Configuration Mapper uses:
the neutral full configuration and, for each controlled joint, either its
index into the full configuration or `-1` for an `"ignore"` entry. -/
structure PinocchioIKSolver (α : Type) where
  q_neutral : List α
  controlled_joints : List ℤ

/-- Constructor lines 42–45: each name is mapped through the model's joint-index
lookup (`idx_qs[getJointId(·)]`, abstracted as the oracle `jointIndex`) unless
it is the literal string `"ignore"`, which becomes `-1`. -/
def mkControlledJoints (jointIndex : String → ℤ) (names : List String) : List ℤ :=
  names.map fun j => if j ≠ "ignore" then jointIndex j else -1

/-- Embeds `PinocchioIKSolver.get_dof`: `len(self.controlled_joints)`. -/
def PinocchioIKSolver.get_dof {α : Type} (s : PinocchioIKSolver α) : ℕ :=
  s.controlled_joints.length

/-- Embeds `PinocchioIKSolver._qmap_control2model`: copy the neutral configuration and
write `q_input[i]` at index `controlled_joints[i]` for each `i` in order. -/
def _qmap_control2model {α : Type} [Inhabited α]
    (s : PinocchioIKSolver α) (q_input : List α) : List α :=
  s.controlled_joints.enum.foldl
    (fun q_out ij => npSet q_out ij.2 (q_input.getD ij.1 default)) s.q_neutral

/-- Embeds `PinocchioIKSolver._qmap_model2control`: allocate `np.empty` of length
`len(controlled_joints)` (uninitialized contents modelled by the oracle
`uninit`) and fill slot `i` from `q_input[joint_idx]` only when
`joint_idx >= 0`. -/
def _qmap_model2control {α : Type} [Inhabited α]
    (s : PinocchioIKSolver α) (q_input : List α) (uninit : ℕ → α) : List α :=
  (List.range s.controlled_joints.length).map fun i =>
    let j := s.controlled_joints.getD i 0
    if 0 ≤ j then q_input.getD j.toNat default else uninit i

/-- Reading of the spec sentence for C5: the number of controlled joints that
are not marked `"ignore"`. -/
def specNonIgnoredCount (names : List String) : ℕ :=
  (names.filter (fun j => j ≠ "ignore")).length

lemma npSet_length {α : Type} (l : List α) (j : ℤ) (v : α) :
    (npSet l j v).length = l.length := by
  simp [npSet]

lemma npSet_nonneg {α : Type} (l : List α) (j : ℤ) (v : α) (h : 0 ≤ j) :
    npSet l j v = l.set j.toNat v := by
  rw [npSet, if_neg (by omega)]

lemma foldl_write_length {α : Type} [Inhabited α] (q : List α)
    (pairs : List (ℕ × ℤ)) (acc : List α) :
    (pairs.foldl (fun q_out ij => npSet q_out ij.2 (q.getD ij.1 default)) acc).length
      = acc.length := by
  induction pairs generalizing acc with
  | nil => rfl
  | cons p rest ih => rw [List.foldl_cons, ih, npSet_length]

lemma foldl_write_getD_notmem {α : Type} [Inhabited α] (q : List α)
    (pairs : List (ℕ × ℤ)) (acc : List α) (j : ℤ) (hj : 0 ≤ j)
    (hmem : ∀ p ∈ pairs, 0 ≤ p.2 ∧ p.2 ≠ j) :
    (pairs.foldl (fun q_out ij => npSet q_out ij.2 (q.getD ij.1 default)) acc).getD
        j.toNat default
      = acc.getD j.toNat default := by
  induction pairs generalizing acc with
  | nil => rfl
  | cons p rest ih =>
    rw [List.foldl_cons, ih _ (fun p' hp' => hmem p' (List.mem_cons_of_mem _ hp'))]
    obtain ⟨h0, hne⟩ := hmem p (List.mem_cons_self _ _)
    rw [npSet_nonneg _ _ _ h0, List.getD_eq_getElem?_getD,
      List.getElem?_set_ne (by omega : p.2.toNat ≠ j.toNat),
      ← List.getD_eq_getElem?_getD]

lemma foldl_write_getD {α : Type} [Inhabited α] (q : List α)
    (pairs : List (ℕ × ℤ)) (acc : List α)
    (hb : ∀ p ∈ pairs, 0 ≤ p.2 ∧ p.2.toNat < acc.length)
    (hnd : (pairs.map Prod.snd).Nodup) :
    ∀ p ∈ pairs,
      (pairs.foldl (fun q_out ij => npSet q_out ij.2 (q.getD ij.1 default)) acc).getD
          p.2.toNat default
        = q.getD p.1 default := by
  induction pairs generalizing acc with
  | nil => intro p hp; cases hp
  | cons p0 rest ih =>
    intro p hp
    rw [List.foldl_cons]
    have hnd' : p0.2 ∉ rest.map Prod.snd ∧ (rest.map Prod.snd).Nodup := by
      rw [List.map_cons, List.nodup_cons] at hnd; exact hnd
    rcases List.mem_cons.mp hp with rfl | hp'
    · have h0 := (hb p (List.mem_cons_self _ _)).1
      have hlen := (hb p (List.mem_cons_self _ _)).2
      have hne : ∀ p' ∈ rest, 0 ≤ p'.2 ∧ p'.2 ≠ p.2 := by
        intro p' hp'
        refine ⟨(hb p' (List.mem_cons_of_mem _ hp')).1, fun heq => hnd'.1 ?_⟩
        exact heq ▸ List.mem_map_of_mem Prod.snd hp'
      rw [foldl_write_getD_notmem q rest _ p.2 h0 hne, npSet_nonneg _ _ _ h0,
        List.getD_eq_getElem?_getD, List.getElem?_set_self (by omega), Option.getD_some]
    · refine ih _ ?_ hnd'.2 p hp'
      intro p' h'
      refine ⟨(hb p' (List.mem_cons_of_mem _ h')).1, ?_⟩
      rw [npSet_length]
      exact (hb p' (List.mem_cons_of_mem _ h')).2

/-- C1, counterexample.  The round trip does *not* hold when the
controlled-joints list contains an `"ignore"` entry: for the solver with
`q_neutral = [0, 0]` and `controlled_joints = [-1]` (one `"ignore"` marker),
`_qmap_control2model` writes the value into the *last* full-configuration slot
(numpy negative indexing), while `_qmap_model2control` skips the slot
(`joint_idx >= 0` fails) and leaves the `np.empty` garbage there — here the
uninitialized memory reads `0` — so the round trip of `[1]` returns `[0]`,
not `[1]`. -/
theorem qmap_roundtrip_cex :
    ¬ (_qmap_model2control (⟨[0, 0], [-1]⟩ : PinocchioIKSolver ℚ)
        (_qmap_control2model ⟨[0, 0], [-1]⟩ [1]) (fun _ => 0) = [1]) := by
  decide

/-- C1, amended.  The Configuration Mapper round trip
`_qmap_model2control (_qmap_control2model q) = q` holds for every reduced `q`
of matching length provided the controlled-joints list has **no** `"ignore"`
entries (all indices nonnegative), the indices are pairwise distinct, and each
index is within the neutral full configuration. -/
theorem qmap_roundtrip {α : Type} [Inhabited α] (s : PinocchioIKSolver α)
    (q : List α) (uninit : ℕ → α)
    (hb : ∀ j ∈ s.controlled_joints, 0 ≤ j ∧ j.toNat < s.q_neutral.length)
    (hnd : s.controlled_joints.Nodup)
    (hlen : q.length = s.controlled_joints.length) :
    _qmap_model2control s (_qmap_control2model s q) uninit = q := by
  apply List.ext_getElem
  · simp [_qmap_model2control, hlen]
  intro n h1 h2
  have hn : n < s.controlled_joints.length := by simpa [_qmap_model2control] using h1
  simp only [_qmap_model2control, List.getElem_map, List.getElem_range]
  have hjs : s.controlled_joints.getD n 0 = s.controlled_joints[n] :=
    List.getD_eq_getElem _ _ hn
  have hmem : s.controlled_joints[n] ∈ s.controlled_joints := List.getElem_mem hn
  rw [hjs, if_pos (hb _ hmem).1]
  have hen : n < s.controlled_joints.enum.length := by simpa [List.enum_length] using hn
  have hpair : (n, s.controlled_joints[n]) ∈ s.controlled_joints.enum := by
    have := List.getElem_enum s.controlled_joints n hen
    exact this ▸ List.getElem_mem hen
  have key := foldl_write_getD q s.controlled_joints.enum s.q_neutral
    (fun p hp => hb p.2 (by
      have : p.2 ∈ List.map Prod.snd s.controlled_joints.enum := List.mem_map_of_mem _ hp
      simpa [List.enum_map_snd] using this))
    (by rw [List.enum_map_snd]; exact hnd)
    (n, s.controlled_joints[n]) hpair
  rw [_qmap_control2model, key, List.getD_eq_getElem q default (by omega)]

/-- C5, counterexample.  The reduced-configuration length reported by
`get_dof` counts `"ignore"` entries: a solver constructed with the single
controlled-joint name `"ignore"` has `get_dof = 1`, while the number of
controlled non-ignored joints is `0`. -/
theorem get_dof_cex :
    ¬ (PinocchioIKSolver.get_dof
        (⟨[0], mkControlledJoints (fun _ => 0) ["ignore"]⟩ : PinocchioIKSolver ℚ)
        = specNonIgnoredCount ["ignore"]) := by
  decide

/-- C5, amended.  The reduced-configuration length — both as reported by
`get_dof` and as produced by the mapper `_qmap_model2control` — equals the
**total** number of entries of the controlled-joints list, `"ignore"` markers
included (the constructor keeps an `"ignore"` entry as a `-1` slot rather than
dropping it). -/
theorem get_dof_total_length {α : Type} [Inhabited α] (s : PinocchioIKSolver α)
    (jointIndex : String → ℤ) (names : List String) :
    s.get_dof = s.controlled_joints.length
    ∧ (∀ (q : List α) (uninit : ℕ → α),
        (_qmap_model2control s q uninit).length = s.controlled_joints.length)
    ∧ (mkControlledJoints jointIndex names).length = names.length := by
  refine ⟨rfl, fun q uninit => ?_, by simp [mkControlledJoints]⟩
  simp [_qmap_model2control]

/-- C1, witness. -/
theorem qmap_roundtrip_witness :
    _qmap_model2control (⟨[0, 0, 0], [2, 0]⟩ : PinocchioIKSolver ℚ)
      (_qmap_control2model ⟨[0, 0, 0], [2, 0]⟩ [5, 7]) (fun _ => 0) = [5, 7] :=
  qmap_roundtrip ⟨[0, 0, 0], [2, 0]⟩ [5, 7] (fun _ => 0)
    (by decide) (by decide) (by decide)

/-! ### Cross-Entropy optimizer (`class CEM`, lines 204–263)

`np.random.randn` is external; its output stream is the oracle
`noise : ℕ → ℕ → ℕ → ℝ` (iteration, sample index, coordinate). -/

structure CEM where
  max_iterations : ℤ
  num_samples : ℕ
  num_top : ℕ
  cost_tol : ℝ
  sigma0 : List ℝ

noncomputable section

/-- One candidate row of `x_arr = mu + sigma * np.random.randn(num_samples, n)`:
coordinate `k` is `mu[k] + sigma[k] * g k`. -/
def sampleRow (mu sigma : List ℝ) (g : ℕ → ℝ) : List ℝ :=
  (List.range mu.length).map fun k => mu.getD k 0 + sigma.getD k 0 * g k

/-- The `num_samples` candidate rows drawn at iteration `i`. -/
def cemRows (P : CEM) (mu sigma : List ℝ) (noise : ℕ → ℕ → ℕ → ℝ) (i : ℕ) :
    List (List ℝ) :=
  (List.range P.num_samples).map fun j => sampleRow mu sigma (noise i j)

/-- Embeds `cost_arr`: first components of `func` on each row. -/
def cemCosts {α : Type} (func : List ℝ → ℝ × α) (rows : List (List ℝ)) : List ℝ :=
  rows.map fun x => (func x).1

/-- Embeds `aux_outputs`: second components of `func` on each row. -/
def cemAux {α : Type} (func : List ℝ → ℝ × α) (rows : List (List ℝ)) : List α :=
  rows.map fun x => (func x).2

/-- Embeds `np.argsort(cost_arr)`: the indices `0..len-1` sorted by cost, ascending. -/
def npArgsort (costs : List ℝ) : List ℕ :=
  (List.range costs.length).mergeSort fun a b => decide (costs.getD a 0 ≤ costs.getD b 0)

/-- Embeds `i_best = idx_sorted_arr[0]`. -/
def cemBest (costs : List ℝ) : ℕ := (npArgsort costs).headD 0

/-- Embeds `x_arr[idx_sorted_arr[:num_top], :]`: the elite rows. -/
def cemElite (P : CEM) (rows : List (List ℝ)) (costs : List ℝ) : List (List ℝ) :=
  ((npArgsort costs).take P.num_top).map fun idx => rows.getD idx []

/-- Embeds `np.mean(rows, axis=0)` over `n` columns. -/
def npMeanAxis0 (rows : List (List ℝ)) (n : ℕ) : List ℝ :=
  (List.range n).map fun k => (rows.map fun r => r.getD k 0).sum / (rows.length : ℝ)

/-- Embeds `np.std(rows, axis=0)` over `n` columns (population standard deviation:
square root of the mean squared deviation from the column mean). -/
def npStdAxis0 (rows : List (List ℝ)) (n : ℕ) : List ℝ :=
  (List.range n).map fun k =>
    Real.sqrt ((rows.map fun r =>
        (r.getD k 0 - (rows.map fun r' => r'.getD k 0).sum / (rows.length : ℝ)) ^ 2).sum
      / (rows.length : ℝ))

/-- The `while True` loop of `CEM.optimize` (lines 236–263), entered with the
post-increment iteration counter equal to `i + 1` at the termination check. -/
def cemLoop {α : Type} [Inhabited α] (P : CEM) (func : List ℝ → ℝ × α)
    (noise : ℕ → ℕ → ℕ → ℝ) (i : ℕ) (mu sigma : List ℝ) : ℝ × α × ℕ × List ℝ :=
  if (i + 1 : ℤ) ≥ P.max_iterations
      ∨ (cemCosts func (cemRows P mu sigma noise i)).getD
          (cemBest (cemCosts func (cemRows P mu sigma noise i))) 0 ≤ P.cost_tol
      ∨ (∀ x ∈ sigma, x ≤ P.cost_tol / 10)
  then ((cemCosts func (cemRows P mu sigma noise i)).getD
          (cemBest (cemCosts func (cemRows P mu sigma noise i))) 0,
        (cemAux func (cemRows P mu sigma noise i)).getD
          (cemBest (cemCosts func (cemRows P mu sigma noise i))) default,
        i + 1, sigma)
  else cemLoop P func noise (i + 1)
        (npMeanAxis0 (cemElite P (cemRows P mu sigma noise i)
            (cemCosts func (cemRows P mu sigma noise i))) mu.length)
        (npStdAxis0 (cemElite P (cemRows P mu sigma noise i)
            (cemCosts func (cemRows P mu sigma noise i))) mu.length)
termination_by (P.max_iterations - i).toNat
decreasing_by
  rename_i h
  push_neg at h
  obtain ⟨h1, -⟩ := h
  omega

/-- Embeds `CEM.optimize` (lines 227–263).  The `assert x0.shape == sigma0.shape` is
modelled as an `Except.error` (an `AssertionError` escaping the call), raised
before any sampling. -/
def CEM.optimize {α : Type} [Inhabited α] (P : CEM) (func : List ℝ → ℝ × α)
    (x0 : List ℝ) (noise : ℕ → ℕ → ℕ → ℝ) : Except String (ℝ × α × ℕ × List ℝ) :=
  if x0.length = P.sigma0.length then .ok (cemLoop P func noise 0 x0 P.sigma0)
  else .error "x0 and sigma0 must have same shape"

end

lemma cemBest_min (costs : List ℝ) : ∀ c ∈ costs, costs.getD (cemBest costs) 0 ≤ c := by
  intro c hc
  obtain ⟨m, hm, rfl⟩ := List.getElem_of_mem hc
  have hperm := List.mergeSort_perm (List.range costs.length)
    (fun a b => decide (costs.getD a 0 ≤ costs.getD b 0))
  have hsorted := @List.sorted_mergeSort ℕ
    (fun a b => decide (costs.getD a 0 ≤ costs.getD b 0))
    (fun a b c hab hbc => by
      simp only [decide_eq_true_eq] at *
      exact le_trans hab hbc)
    (fun a b => by
      simp only [Bool.or_eq_true, decide_eq_true_eq]
      exact le_total _ _)
    (List.range costs.length)
  have hmmem : m ∈ npArgsort costs := by
    rw [npArgsort]
    exact hperm.mem_iff.mpr (List.mem_range.mpr hm)
  rcases hargs : npArgsort costs with _ | ⟨h, t⟩
  · rw [hargs] at hmmem; cases hmmem
  · rw [hargs] at hmmem
    have hbest : cemBest costs = h := by rw [cemBest, hargs]; rfl
    rw [hbest]
    rw [npArgsort] at hargs
    rw [hargs] at hsorted
    rcases List.mem_cons.mp hmmem with rfl | hmt
    · rw [List.getD_eq_getElem _ _ hm]
    · have hle := (List.pairwise_cons.mp hsorted).1 m hmt
      simp only [decide_eq_true_eq] at hle
      calc costs.getD h 0 ≤ costs.getD m 0 := hle
        _ = costs[m] := List.getD_eq_getElem _ _ hm

/-- C3.  One iteration of `CEM.optimize`'s loop: after the `num_samples`
candidates are evaluated, the loop returns (stops) exactly when the incremented
iteration count reaches `max_iterations`, or the best sampled cost is at most
`cost_tol`, or every `sigma` component is at most `cost_tol / 10`; otherwise it
continues with the mean and the population standard deviation of the `num_top`
lowest-cost candidates.  The second conjunct checks that the cost at the head
of the argsort really is the minimum of the sampled costs. -/
theorem cem_iteration {α : Type} [Inhabited α] (P : CEM) (func : List ℝ → ℝ × α)
    (noise : ℕ → ℕ → ℕ → ℝ) (i : ℕ) (mu sigma : List ℝ) :
    (cemLoop P func noise i mu sigma =
      if (i + 1 : ℤ) ≥ P.max_iterations
          ∨ (cemCosts func (cemRows P mu sigma noise i)).getD
              (cemBest (cemCosts func (cemRows P mu sigma noise i))) 0 ≤ P.cost_tol
          ∨ (∀ x ∈ sigma, x ≤ P.cost_tol / 10)
      then ((cemCosts func (cemRows P mu sigma noise i)).getD
              (cemBest (cemCosts func (cemRows P mu sigma noise i))) 0,
            (cemAux func (cemRows P mu sigma noise i)).getD
              (cemBest (cemCosts func (cemRows P mu sigma noise i))) default,
            i + 1, sigma)
      else cemLoop P func noise (i + 1)
            (npMeanAxis0 (cemElite P (cemRows P mu sigma noise i)
                (cemCosts func (cemRows P mu sigma noise i))) mu.length)
            (npStdAxis0 (cemElite P (cemRows P mu sigma noise i)
                (cemCosts func (cemRows P mu sigma noise i))) mu.length))
    ∧ ∀ c ∈ cemCosts func (cemRows P mu sigma noise i),
        (cemCosts func (cemRows P mu sigma noise i)).getD
          (cemBest (cemCosts func (cemRows P mu sigma noise i))) 0 ≤ c :=
  ⟨by rw [cemLoop], cemBest_min _⟩

/-- C3, witness.  A concrete one-sample iteration (`mu = [0]`,
`sigma = [1]`, constant cost `5`, tolerance `0`, `max_iterations = 5`): the
loop equation holds and the best sampled cost is at most the sampled cost `5`. -/
theorem cem_iteration_witness :
    (cemLoop ⟨5, 1, 1, 0, [1]⟩ (fun _ => ((5 : ℝ), ())) (fun _ _ _ => 0) 0 [0] [1] =
      if (0 + 1 : ℤ) ≥ (5 : ℤ)
          ∨ (cemCosts (fun _ => ((5 : ℝ), ()))
              (cemRows ⟨5, 1, 1, 0, [1]⟩ [0] [1] (fun _ _ _ => 0) 0)).getD
              (cemBest (cemCosts (fun _ => ((5 : ℝ), ()))
                (cemRows ⟨5, 1, 1, 0, [1]⟩ [0] [1] (fun _ _ _ => 0) 0))) 0 ≤ (0 : ℝ)
          ∨ (∀ x ∈ [(1 : ℝ)], x ≤ (0 : ℝ) / 10)
      then ((cemCosts (fun _ => ((5 : ℝ), ()))
              (cemRows ⟨5, 1, 1, 0, [1]⟩ [0] [1] (fun _ _ _ => 0) 0)).getD
              (cemBest (cemCosts (fun _ => ((5 : ℝ), ()))
                (cemRows ⟨5, 1, 1, 0, [1]⟩ [0] [1] (fun _ _ _ => 0) 0))) 0,
            (cemAux (fun _ => ((5 : ℝ), ()))
              (cemRows ⟨5, 1, 1, 0, [1]⟩ [0] [1] (fun _ _ _ => 0) 0)).getD
              (cemBest (cemCosts (fun _ => ((5 : ℝ), ()))
                (cemRows ⟨5, 1, 1, 0, [1]⟩ [0] [1] (fun _ _ _ => 0) 0))) default,
            0 + 1, [1])
      else cemLoop ⟨5, 1, 1, 0, [1]⟩ (fun _ => (5, ())) (fun _ _ _ => 0) (0 + 1)
            (npMeanAxis0 (cemElite ⟨5, 1, 1, 0, [1]⟩
                (cemRows ⟨5, 1, 1, 0, [1]⟩ [0] [1] (fun _ _ _ => 0) 0)
                (cemCosts (fun _ => ((5 : ℝ), ()))
                  (cemRows ⟨5, 1, 1, 0, [1]⟩ [0] [1] (fun _ _ _ => 0) 0)))
              [(0 : ℝ)].length)
            (npStdAxis0 (cemElite ⟨5, 1, 1, 0, [1]⟩
                (cemRows ⟨5, 1, 1, 0, [1]⟩ [0] [1] (fun _ _ _ => 0) 0)
                (cemCosts (fun _ => ((5 : ℝ), ()))
                  (cemRows ⟨5, 1, 1, 0, [1]⟩ [0] [1] (fun _ _ _ => 0) 0)))
              [(0 : ℝ)].length))
    ∧ (cemCosts (fun _ => ((5 : ℝ), ()))
        (cemRows ⟨5, 1, 1, 0, [1]⟩ [0] [1] (fun _ _ _ => 0) 0)).getD
        (cemBest (cemCosts (fun _ => ((5 : ℝ), ()))
          (cemRows ⟨5, 1, 1, 0, [1]⟩ [0] [1] (fun _ _ _ => 0) 0))) 0 ≤ 5 :=
  ⟨(cem_iteration ⟨5, 1, 1, 0, [1]⟩ (fun _ => (5, ())) (fun _ _ _ => 0) 0 [0] [1]).1,
   (cem_iteration ⟨5, 1, 1, 0, [1]⟩ (fun _ => (5, ())) (fun _ _ _ => 0) 0 [0] [1]).2 5
     (by simp [cemCosts, cemRows])⟩

/-- C4.  Calling `CEM.optimize` with `x0` whose length differs from the
configured `sigma0` fails immediately with the assertion error, for *every*
cost function and every random stream — in particular the cost function is
never invoked and nothing is sampled. -/
theorem optimize_dim_mismatch {α : Type} [Inhabited α] (P : CEM) (x0 : List ℝ)
    (h : x0.length ≠ P.sigma0.length) :
    ∀ (func : List ℝ → ℝ × α) (noise : ℕ → ℕ → ℕ → ℝ),
      P.optimize func x0 noise = .error "x0 and sigma0 must have same shape" := by
  intro func noise
  rw [CEM.optimize, if_neg h]

/-- C4, witness.  `x0` of length 3 against `sigma0` of length 2. -/
theorem optimize_dim_mismatch_witness :
    CEM.optimize ⟨5, 10, 3, 0.005, [1, 1]⟩ (fun _ => ((0 : ℝ), ([] : List ℝ)))
      [0, 0, 0] (fun _ _ _ => 0) = .error "x0 and sigma0 must have same shape" :=
  optimize_dim_mismatch ⟨5, 10, 3, 0.005, [1, 1]⟩ [0, 0, 0] (by decide)
    (fun _ => ((0 : ℝ), ([] : List ℝ))) (fun _ _ _ => 0)

lemma cemLoop_iterations {α : Type} [Inhabited α] (P : CEM) (func : List ℝ → ℝ × α)
    (noise : ℕ → ℕ → ℕ → ℝ) :
    ∀ (fuel i : ℕ) (mu sigma : List ℝ), (P.max_iterations - i).toNat = fuel →
      i + 1 ≤ (cemLoop P func noise i mu sigma).2.2.1 := by
  intro fuel
  induction fuel using Nat.strong_induction_on with
  | _ fuel IH =>
    intro i mu sigma hf
    rw [cemLoop]
    split
    · simp
    · rename_i hcond
      push_neg at hcond
      obtain ⟨h1, -⟩ := hcond
      calc i + 1 ≤ (i + 1) + 1 := by omega
        _ ≤ _ := IH ((P.max_iterations - (i + 1)).toNat) (by omega) (i + 1) _ _ rfl

/-- C10.  Whenever `CEM.optimize` passes its shape assertion (and the
sample population is nonempty), it runs at least one full
sampling-and-evaluation pass before any stopping condition is checked: the call
returns normally with `iterationsUsed ≥ 1` — even when `max_iterations = 0` or
the initial `sigma0` already satisfies the std threshold — each iteration
evaluates the cost function on exactly `num_samples` candidate rows, and the
first iteration's evaluated cost list is nonempty. -/
theorem optimize_first_pass {α : Type} [Inhabited α] (P : CEM)
    (func : List ℝ → ℝ × α) (x0 : List ℝ) (noise : ℕ → ℕ → ℕ → ℝ)
    (hdim : x0.length = P.sigma0.length) (hns : 0 < P.num_samples) :
    ∃ c a it s, P.optimize func x0 noise = .ok (c, a, it, s) ∧ 1 ≤ it
    ∧ (∀ (mu sigma : List ℝ) (j : ℕ), (cemRows P mu sigma noise j).length = P.num_samples)
    ∧ cemCosts func (cemRows P x0 P.sigma0 noise 0) ≠ [] := by
  have hiter := cemLoop_iterations P func noise ((P.max_iterations - 0).toNat) 0 x0 P.sigma0 rfl
  refine ⟨(cemLoop P func noise 0 x0 P.sigma0).1,
          (cemLoop P func noise 0 x0 P.sigma0).2.1,
          (cemLoop P func noise 0 x0 P.sigma0).2.2.1,
          (cemLoop P func noise 0 x0 P.sigma0).2.2.2, ?_, by simpa using hiter, ?_, ?_⟩
  · rw [CEM.optimize, if_pos hdim]
  · intro mu sigma j
    simp [cemRows]
  · have hlen : (cemCosts func (cemRows P x0 P.sigma0 noise 0)).length = P.num_samples := by
      simp [cemCosts, cemRows]
    exact List.ne_nil_of_length_pos (by omega)

/-- C10, witness.  A call with `max_iterations = 0`, an empty parameter vector
(so the std threshold holds vacuously), and one sample per iteration. -/
theorem optimize_first_pass_witness :
    ([] : List ℝ).length = (⟨0, 1, 1, 0, []⟩ : CEM).sigma0.length
    ∧ 0 < (⟨0, 1, 1, 0, []⟩ : CEM).num_samples
    ∧ ∃ c a it s,
        (⟨0, 1, 1, 0, []⟩ : CEM).optimize (fun _ => ((0 : ℝ), ([] : List ℝ))) []
            (fun _ _ _ => 0) = .ok (c, a, it, s)
        ∧ 1 ≤ it
        ∧ (∀ (mu sigma : List ℝ) (j : ℕ),
            (cemRows ⟨0, 1, 1, 0, []⟩ mu sigma (fun _ _ _ => 0) j).length
              = (⟨0, 1, 1, 0, []⟩ : CEM).num_samples)
        ∧ cemCosts (fun _ => ((0 : ℝ), ([] : List ℝ)))
            (cemRows ⟨0, 1, 1, 0, []⟩ [] ((⟨0, 1, 1, 0, []⟩ : CEM)).sigma0
              (fun _ _ _ => 0) 0) ≠ [] :=
  ⟨rfl, by decide,
   optimize_first_pass ⟨0, 1, 1, 0, []⟩ (fun _ => ((0 : ℝ), ([] : List ℝ))) []
     (fun _ _ _ => 0) rfl (by decide)⟩

/-! ### Differential IK solver (`PinocchioIKSolver.compute_ik`, lines 82–117)

The pinocchio kinematic model is an external collaborator.  For one solver and
one fixed target pose `(pos, quat)` it provides: the 6-vector pose error
`errOf q` (the tangent-space logarithm `pinocchio.log(desired⁻¹ ∘ fk(q)).vector`
after `forwardKinematics`/`updateFramePlacement`), the local-frame 6×nv frame
Jacobian `jac q`, and the manifold integration `integrate q v`. -/

def EPS : ℝ := 1e-4

def DT : ℝ := 1e-1

def DAMP : ℝ := 1e-12

structure PinKin where
  nv : ℕ
  errOf : List ℝ → Fin 6 → ℝ
  jac : List ℝ → Matrix (Fin 6) (Fin nv) ℝ
  integrate : List ℝ → (Fin nv → ℝ) → List ℝ

noncomputable section

/-- Embeds `np.linalg.norm(err)` for the 6-vector pose error. -/
def npNorm6 (e : Fin 6 → ℝ) : ℝ := Real.sqrt (∑ i, e i ^ 2)

/-- Embeds `J.dot(J.T) + DAMP * np.eye(6)`. -/
def jjt (K : PinKin) (q : List ℝ) : Matrix (Fin 6) (Fin 6) ℝ :=
  K.jac q * (K.jac q)ᵀ + DAMP • 1

/-- Embeds `np.linalg.solve(J.dot(J.T) + DAMP*np.eye(6), err)` — for the (always
positive-definite in exact arithmetic) damped matrix this is the inverse
applied to `err`. -/
def solveVec (K : PinKin) (q : List ℝ) : Fin 6 → ℝ := (jjt K q)⁻¹ *ᵥ K.errOf q

/-- Embeds `v = -J.T.dot(np.linalg.solve(J.dot(J.T) + DAMP*np.eye(6), err))`. -/
def dlsVelocity (K : PinKin) (q : List ℝ) : Fin K.nv → ℝ :=
  -((K.jac q)ᵀ *ᵥ solveVec K q)

/-- Embeds `q = pinocchio.integrate(self.model, q, v * self.DT)`. -/
def ikStep (K : PinKin) (q : List ℝ) : List ℝ :=
  K.integrate q (fun idx => dlsVelocity K q idx * DT)

/-- The `while True` loop of `compute_ik`: error check first, iteration-cap
check second, otherwise one damped-least-squares step. -/
def ikLoop (K : PinKin) (max_iterations : ℤ) (i : ℕ) (q : List ℝ) :
    List ℝ × Bool :=
  if npNorm6 (K.errOf q) < EPS then (q, true)
  else if (i : ℤ) ≥ max_iterations then (q, false)
  else ikLoop K max_iterations (i + 1) (ikStep K q)
termination_by (max_iterations - i).toNat
decreasing_by
  rename_i _h1 h2
  omega

/-- Seeding of the full configuration: neutral when `q_init is None`, else
`_qmap_control2model(q_init)`. -/
def ikSeed (s : PinocchioIKSolver ℝ) (q_init : Option (List ℝ)) : List ℝ :=
  match q_init with
  | none => s.q_neutral
  | some qi => _qmap_control2model s qi

/-- Embeds `PinocchioIKSolver.compute_ik`: run the loop from the seed, then map the
full configuration at loop exit back through `_qmap_model2control`. -/
def compute_ik (K : PinKin) (s : PinocchioIKSolver ℝ) (q_init : Option (List ℝ))
    (max_iterations : ℤ) (uninit : ℕ → ℝ) : List ℝ × Bool :=
  (_qmap_model2control s (ikLoop K max_iterations 0 (ikSeed s q_init)).1 uninit,
   (ikLoop K max_iterations 0 (ikSeed s q_init)).2)

end

lemma ikLoop_spec (K : PinKin) (m : ℤ) :
    ∀ (fuel i : ℕ) (q : List ℝ), (m - i).toNat = fuel →
      ∃ kE, (kE = 0 ∨ i + kE ≤ m.toNat)
        ∧ (ikLoop K m i q).1 = (ikStep K)^[kE] q
        ∧ ((ikLoop K m i q).2 = true ↔
            ∃ k, (k = 0 ∨ i + k ≤ m.toNat)
              ∧ npNorm6 (K.errOf ((ikStep K)^[k] q)) < EPS) := by
  intro fuel
  induction fuel using Nat.strong_induction_on with
  | _ fuel IH =>
    intro i q hf
    by_cases h1 : npNorm6 (K.errOf q) < EPS
    · refine ⟨0, Or.inl rfl, ?_, ?_⟩
      · rw [ikLoop, if_pos h1]
        simp
      · rw [ikLoop, if_pos h1]
        exact ⟨fun _ => ⟨0, Or.inl rfl, by simpa using h1⟩, fun _ => rfl⟩
    · by_cases h2 : (i : ℤ) ≥ m
      · refine ⟨0, Or.inl rfl, ?_, ?_⟩
        · rw [ikLoop, if_neg h1, if_pos h2]
          simp
        · rw [ikLoop, if_neg h1, if_pos h2]
          constructor
          · intro hft
            exact absurd hft (by simp)
          · rintro ⟨k, hk, hcv⟩
            have hk0 : k = 0 := by omega
            subst hk0
            exact absurd (by simpa using hcv) h1
      · have hunfold : ikLoop K m i q = ikLoop K m (i + 1) (ikStep K q) := by
          rw [ikLoop, if_neg h1, if_neg h2]
        obtain ⟨kE, hkE, hfst, hiff⟩ := IH ((m - (i + 1)).toNat) (by omega) (i + 1)
          (ikStep K q) rfl
        refine ⟨kE + 1, by omega, ?_, ?_⟩
        · rw [hunfold, hfst, Function.iterate_succ_apply]
        · rw [hunfold, hiff]
          constructor
          · rintro ⟨k, hk, hcv⟩
            exact ⟨k + 1, by omega, by rwa [Function.iterate_succ_apply]⟩
          · rintro ⟨k, hk, hcv⟩
            cases k with
            | zero => exact absurd (by simpa using hcv) h1
            | succ k' =>
              exact ⟨k', by omega, by rwa [Function.iterate_succ_apply] at hcv⟩

/-- C2, counterexample.  `success` can be `true` even though the error norm
never fell below ε *before* the iteration count reached `max_iterations`: with
`max_iterations = 0` and a kinematics whose pose error is identically zero, the
error check (which the source performs *before* the cap check, at `i = 0 =
max_iterations`) fires and the call returns `success = true`, while no check
with iteration count `< 0` exists at all. -/
theorem compute_ik_before_cap_cex :
    (compute_ik ⟨0, fun _ _ => 0, fun _ => 0, fun q _ => q⟩ ⟨[], []⟩ none 0
        (fun _ => 0)).2 = true
    ∧ ¬ ∃ k : ℕ, (k : ℤ) < 0
        ∧ npNorm6 ((⟨0, fun _ _ => 0, fun _ => 0, fun q _ => q⟩ : PinKin).errOf
            ((ikStep ⟨0, fun _ _ => 0, fun _ => 0, fun q _ => q⟩)^[k]
              (ikSeed ⟨[], []⟩ none))) < EPS := by
  constructor
  · show (ikLoop _ 0 0 (ikSeed ⟨[], []⟩ none)).2 = true
    rw [ikLoop, if_pos (by norm_num [npNorm6, EPS])]
  · rintro ⟨k, hk, -⟩
    omega

/-- C2, amended.  `compute_ik` always returns a pair: the reduced
configuration at loop exit (the mapper applied to the configuration after some
`kE ≤ max_iterations` damped-least-squares steps) together with a success flag
that is `true` **iff** the pose-error norm falls below ε = 1e-4 at some checked
iterate `k ≤ max_iterations` — the bound is inclusive because the source tests
the error *before* testing the iteration cap in each loop pass. -/
theorem compute_ik_spec (K : PinKin) (s : PinocchioIKSolver ℝ)
    (q_init : Option (List ℝ)) (m : ℤ) (uninit : ℕ → ℝ) :
    ∃ kE, kE ≤ m.toNat
      ∧ (compute_ik K s q_init m uninit).1
          = _qmap_model2control s ((ikStep K)^[kE] (ikSeed s q_init)) uninit
      ∧ ((compute_ik K s q_init m uninit).2 = true ↔
          ∃ k, k ≤ m.toNat
            ∧ npNorm6 (K.errOf ((ikStep K)^[k] (ikSeed s q_init))) < EPS) := by
  obtain ⟨kE, hkE, hfst, hiff⟩ := ikLoop_spec K m ((m - 0).toNat) 0 (ikSeed s q_init) rfl
  refine ⟨kE, ?_, ?_, ?_⟩
  · rcases hkE with rfl | h
    · exact Nat.zero_le _
    · simpa using h
  · show _qmap_model2control s (ikLoop K m 0 (ikSeed s q_init)).1 uninit = _
    rw [hfst]
  · show (ikLoop K m 0 (ikSeed s q_init)).2 = true ↔ _
    rw [hiff]
    constructor
    · rintro ⟨k, hk, hcv⟩
      rcases hk with rfl | h
      · exact ⟨0, Nat.zero_le _, hcv⟩
      · exact ⟨k, by simpa using h, hcv⟩
    · rintro ⟨k, hk, hcv⟩
      exact ⟨k, Or.inr (by simpa using hk), hcv⟩

/-- C7.  Each non-terminating pass of the `compute_ik` loop (error norm not
below ε, iteration count below the cap) recurses on the configuration obtained
by manifold-integrating the damped-least-squares velocity
`v = -Jᵀ (J Jᵀ + λ I)⁻¹ err` (damping `λ = 1e-12`) scaled by the step size
`0.1`; and the vector the `np.linalg.solve` call produces really solves the
damped system (second conjunct), provided the damped matrix is invertible. -/
theorem ik_dls_update (K : PinKin) (m : ℤ) (i : ℕ) (q : List ℝ)
    (h1 : ¬ npNorm6 (K.errOf q) < EPS) (h2 : ¬ ((i : ℤ) ≥ m))
    (hA : IsUnit (K.jac q * (K.jac q)ᵀ
        + (1e-12 : ℝ) • (1 : Matrix (Fin 6) (Fin 6) ℝ)).det) :
    ikLoop K m i q
      = ikLoop K m (i + 1)
          (K.integrate q (fun idx =>
            (-((K.jac q)ᵀ *ᵥ
               ((K.jac q * (K.jac q)ᵀ + (1e-12 : ℝ) • 1)⁻¹ *ᵥ K.errOf q))) idx
              * (1e-1 : ℝ)))
    ∧ (K.jac q * (K.jac q)ᵀ + (1e-12 : ℝ) • 1) *ᵥ
        ((K.jac q * (K.jac q)ᵀ + (1e-12 : ℝ) • 1)⁻¹ *ᵥ K.errOf q) = K.errOf q := by
  constructor
  · rw [ikLoop, if_neg h1, if_neg h2, ikStep]
    simp only [dlsVelocity, solveVec, jjt, DAMP, DT]
  · rw [Matrix.mulVec_mulVec, Matrix.mul_nonsing_inv _ hA, Matrix.one_mulVec]

/-- A concrete external kinematics for the C7 witness: zero columns in the
Jacobian (`nv = 0`), a constant unit pose error, trivial integration. -/
def pinKinW : PinKin := ⟨0, fun _ _ => 1, fun _ => 0, fun q _ => q⟩

/-- C7, witness. -/
theorem ik_dls_update_witness :
    (¬ npNorm6 (pinKinW.errOf []) < EPS) ∧ (¬ ((0 : ℤ) ≥ 5))
    ∧ IsUnit (pinKinW.jac [] * (pinKinW.jac [])ᵀ
        + (1e-12 : ℝ) • (1 : Matrix (Fin 6) (Fin 6) ℝ)).det
    ∧ (ikLoop pinKinW 5 0 []
        = ikLoop pinKinW 5 1
            (pinKinW.integrate [] (fun idx =>
              (-((pinKinW.jac [])ᵀ *ᵥ
                 ((pinKinW.jac [] * (pinKinW.jac [])ᵀ + (1e-12 : ℝ) • 1)⁻¹ *ᵥ
                   pinKinW.errOf []))) idx * (1e-1 : ℝ)))
        ∧ (pinKinW.jac [] * (pinKinW.jac [])ᵀ + (1e-12 : ℝ) • 1) *ᵥ
            ((pinKinW.jac [] * (pinKinW.jac [])ᵀ + (1e-12 : ℝ) • 1)⁻¹ *ᵥ
              pinKinW.errOf [])
          = pinKinW.errOf []) := by
  have h1 : ¬ npNorm6 (pinKinW.errOf []) < EPS := by
    have hs : npNorm6 (pinKinW.errOf []) = Real.sqrt 6 := by
      show npNorm6 (fun _ => 1) = Real.sqrt 6
      rw [npNorm6]
      norm_num
    rw [hs]
    have hge : (1 : ℝ) ≤ Real.sqrt 6 := Real.one_le_sqrt.mpr (by norm_num)
    intro hlt
    rw [EPS] at hlt
    norm_num at hlt
    linarith
  have h2 : ¬ ((0 : ℤ) ≥ 5) := by decide
  have hA : IsUnit (pinKinW.jac [] * (pinKinW.jac [])ᵀ
      + (1e-12 : ℝ) • (1 : Matrix (Fin 6) (Fin 6) ℝ)).det := by
    have hz : pinKinW.jac [] * (pinKinW.jac [])ᵀ = 0 := by
      ext i j
      simp [pinKinW, Matrix.mul_apply]
    rw [hz, zero_add, Matrix.det_smul, Matrix.det_one, isUnit_iff_ne_zero]
    norm_num
  exact ⟨h1, h2, hA, ik_dls_update pinKinW 5 0 [] h1 h2 hA⟩

/-! ### Stochastic Pose Optimizer (`PositionIKOptimizer`, lines 120–201)

The wrapped IK backend is any `{compute_ik, compute_fk}` implementation
(`Union[PinocchioIKSolver, PybulletIKSolver]`); the scipy rotation composition
`(R.from_rotvec(dr) * R.from_quat(quat_desired)).as_quat()` is external and
abstracted as the oracle `rotvecCompose`. -/

structure IKBackend where
  compute_ik : (Fin 3 → ℝ) → (Fin 4 → ℝ) → List ℝ × Bool
  compute_fk : List ℝ → (Fin 3 → ℝ) × (Fin 4 → ℝ)

structure PositionIKOptimizer where
  pos_wt : ℝ := 1
  ori_wt : ℝ := 0
  pos_error_tol : ℝ
  ori_error_range : List ℝ
  max_iterations : ℤ := 30
  num_samples : ℕ := 100
  num_top : ℕ := 10

noncomputable section

/-- Lines 164–170: the CEM instance `PositionIKOptimizer.__init__` builds —
cost tolerance `pos_error_tol`, initial std `sigma0 = ori_error_range / 2`. -/
def PositionIKOptimizer.opt (o : PositionIKOptimizer) : CEM :=
  ⟨o.max_iterations, o.num_samples, o.num_top, o.pos_error_tol,
   o.ori_error_range.map fun x => x / 2⟩

/-- Embeds `np.linalg.norm(pos - pos_out)`. -/
def norm3 (v : Fin 3 → ℝ) : ℝ := Real.sqrt (∑ i, v i ^ 2)

/-- Embeds `cost_rot = 1 - (rot_out * quat_desired).sum() ** 2`. -/
def oriCost (qa qd : Fin 4 → ℝ) : ℝ := 1 - (∑ i, qa i * qd i) ^ 2

/-- The `solve_ik` closure of `compute_ik_opt` (lines 177–191): perturb the
desired orientation by the rotation vector `dr`, run IK, run FK on the result,
and report `pos_wt * cost_pos + ori_wt * cost_rot` together with the IK
configuration as auxiliary payload. -/
def solve_ik (o : PositionIKOptimizer) (B : IKBackend)
    (rotvecCompose : (Fin 3 → ℝ) → (Fin 4 → ℝ) → Fin 4 → ℝ)
    (pos_desired : Fin 3 → ℝ) (quat_desired : Fin 4 → ℝ) (dr : Fin 3 → ℝ) :
    ℝ × List ℝ :=
  (o.pos_wt * norm3 (fun i => pos_desired i
        - (B.compute_fk (B.compute_ik pos_desired (rotvecCompose dr quat_desired)).1).1 i)
    + o.ori_wt * oriCost
        (B.compute_fk (B.compute_ik pos_desired (rotvecCompose dr quat_desired)).1).2
        quat_desired,
   (B.compute_ik pos_desired (rotvecCompose dr quat_desired)).1)

/-- Embeds `compute_ik_opt` (lines 172–201): delegate `solve_ik` to the CEM optimizer
seeded at `x0 = np.zeros(3)`; return `(q_result, cost_opt, max_iter, opt_sigma)`. -/
def compute_ik_opt (o : PositionIKOptimizer) (B : IKBackend)
    (rotvecCompose : (Fin 3 → ℝ) → (Fin 4 → ℝ) → Fin 4 → ℝ)
    (pos_desired : Fin 3 → ℝ) (quat_desired : Fin 4 → ℝ)
    (noise : ℕ → ℕ → ℕ → ℝ) : Except String (List ℝ × ℝ × ℕ × List ℝ) :=
  match o.opt.optimize
      (fun dr => solve_ik o B rotvecCompose pos_desired quat_desired
        fun i => dr.getD i 0)
      [0, 0, 0] noise with
  | .ok (c, q, it, s) => .ok (q, c, it, s)
  | .error e => .error e

end

/-- C6.  With orientation weight `0` and position weight `1` (the
defaults), the cost `solve_ik` reports for any sampled perturbation `dr` is
exactly the plain position-IK error: the Euclidean norm of the desired
position minus the position achieved by forward kinematics of the IK result. -/
theorem solve_ik_pos_only (o : PositionIKOptimizer) (B : IKBackend)
    (rotvecCompose : (Fin 3 → ℝ) → (Fin 4 → ℝ) → Fin 4 → ℝ)
    (pos_desired : Fin 3 → ℝ) (quat_desired : Fin 4 → ℝ) (dr : Fin 3 → ℝ)
    (hp : o.pos_wt = 1) (ho : o.ori_wt = 0) :
    (solve_ik o B rotvecCompose pos_desired quat_desired dr).1
      = norm3 (fun i => pos_desired i
          - (B.compute_fk
              (B.compute_ik pos_desired (rotvecCompose dr quat_desired)).1).1 i) := by
  rw [solve_ik, hp, ho]
  ring

/-- C6, witness. -/
theorem solve_ik_pos_only_witness :
    ({ pos_error_tol := 0.005, ori_error_range := [1, 1, 1] }
        : PositionIKOptimizer).pos_wt = 1
    ∧ ({ pos_error_tol := 0.005, ori_error_range := [1, 1, 1] }
        : PositionIKOptimizer).ori_wt = 0
    ∧ (solve_ik { pos_error_tol := 0.005, ori_error_range := [1, 1, 1] }
        ⟨fun _ _ => ([], true), fun _ => (fun _ => 0, fun _ => 0)⟩
        (fun _ q => q) (fun _ => 0) (fun _ => 0) (fun _ => 0)).1
      = norm3 (fun i => (0 : ℝ)
          - ((⟨fun _ _ => ([], true), fun _ => (fun _ => 0, fun _ => 0)⟩
              : IKBackend).compute_fk
              ((⟨fun _ _ => ([], true), fun _ => (fun _ => 0, fun _ => 0)⟩
                : IKBackend).compute_ik (fun _ => 0) (fun _ => (0 : ℝ))).1).1 i) :=
  ⟨rfl, rfl,
   solve_ik_pos_only { pos_error_tol := 0.005, ori_error_range := [1, 1, 1] }
     ⟨fun _ _ => ([], true), fun _ => (fun _ => 0, fun _ => 0)⟩
     (fun _ q => q) (fun _ => 0) (fun _ => 0) (fun _ => 0) rfl rfl⟩

lemma oriCost_neg_left (qa qd : Fin 4 → ℝ) :
    oriCost (fun i => -qa i) qd = oriCost qa qd := by
  rw [oriCost, oriCost]
  have h : (∑ i, -qa i * qd i) = -∑ i, qa i * qd i := by
    rw [← Finset.sum_neg_distrib]
    exact Finset.sum_congr rfl fun i _ => by ring
  rw [h, neg_sq]

lemma oriCost_neg_right (qa qd : Fin 4 → ℝ) :
    oriCost qa (fun i => -qd i) = oriCost qa qd := by
  rw [oriCost, oriCost]
  have h : (∑ i, qa i * -qd i) = -∑ i, qa i * qd i := by
    rw [← Finset.sum_neg_distrib]
    exact Finset.sum_congr rfl fun i _ => by ring
  rw [h, neg_sq]

/-- C8.  The orientation cost term `1 - (qa · qd)²` is invariant under
replacing either quaternion by its antipode; consequently, whenever the
(external) rotation composition treats the antipodal desired quaternion
identically — as scipy does, since `-q` encodes the same rotation — the whole
`solve_ik` cost is unchanged by flipping the desired quaternion's sign. -/
theorem oriCost_sign_invariant (qa qd : Fin 4 → ℝ) :
    oriCost (fun i => -qa i) qd = oriCost qa qd
    ∧ oriCost qa (fun i => -qd i) = oriCost qa qd
    ∧ ∀ (o : PositionIKOptimizer) (B : IKBackend)
        (rotvecCompose : (Fin 3 → ℝ) → (Fin 4 → ℝ) → Fin 4 → ℝ)
        (pos_desired : Fin 3 → ℝ) (dr : Fin 3 → ℝ),
        rotvecCompose dr (fun i => -qd i) = rotvecCompose dr qd →
        (solve_ik o B rotvecCompose pos_desired (fun i => -qd i) dr).1
          = (solve_ik o B rotvecCompose pos_desired qd dr).1 := by
  refine ⟨oriCost_neg_left qa qd, oriCost_neg_right qa qd, ?_⟩
  intro o B rotvecCompose pos_desired dr hrc
  rw [solve_ik, solve_ik, hrc, oriCost_neg_right]

/-- C8, witness. -/
theorem oriCost_sign_invariant_witness :
    oriCost (fun i => -(fun _ : Fin 4 => (1 : ℝ)) i) (fun _ => 1)
        = oriCost (fun _ => 1) (fun _ => 1)
    ∧ oriCost (fun _ : Fin 4 => (1 : ℝ)) (fun i => -(fun _ : Fin 4 => (1 : ℝ)) i)
        = oriCost (fun _ => 1) (fun _ => 1)
    ∧ (solve_ik { pos_error_tol := 0.005, ori_error_range := [1, 1, 1] }
          ⟨fun _ _ => ([], true), fun _ => (fun _ => 0, fun _ => 0)⟩
          (fun _ _ _ => 0) (fun _ => 0) (fun i => -(fun _ : Fin 4 => (1 : ℝ)) i)
          (fun _ => 0)).1
        = (solve_ik { pos_error_tol := 0.005, ori_error_range := [1, 1, 1] }
            ⟨fun _ _ => ([], true), fun _ => (fun _ => 0, fun _ => 0)⟩
            (fun _ _ _ => 0) (fun _ => 0) (fun _ => 1) (fun _ => 0)).1 :=
  ⟨(oriCost_sign_invariant (fun _ => 1) (fun _ => 1)).1,
   (oriCost_sign_invariant (fun _ => 1) (fun _ => 1)).2.1,
   (oriCost_sign_invariant (fun _ => 1) (fun _ => 1)).2.2
     { pos_error_tol := 0.005, ori_error_range := [1, 1, 1] }
     ⟨fun _ _ => ([], true), fun _ => (fun _ => 0, fun _ => 0)⟩
     (fun _ _ _ => 0) (fun _ => 0) (fun _ => 0) rfl⟩

noncomputable section

/-- Concrete optimizer for the C9 counterexample: per-axis perturbation
half-range `2`, one sample, loose cost tolerance so a single iteration ends the
search. -/
def exOpt : PositionIKOptimizer :=
  { pos_wt := 1, ori_wt := 0, pos_error_tol := 10, ori_error_range := [2, 2, 2],
    max_iterations := 30, num_samples := 1, num_top := 1 }

/-- Concrete backend for the C9 counterexample: the IK result records the first
component of the trial quaternion, and forward kinematics echoes it as the
`x`-coordinate — so the reported cost equals `|dr₀|` of the evaluated
perturbation. -/
def exB : IKBackend :=
  ⟨fun _ quat => ([quat 0], true),
   fun q => (fun i => if i = 0 then q.getD 0 0 else 0, fun _ => 0)⟩

/-- Concrete rotation-composition oracle for the C9 counterexample: the trial
quaternion's components all read `dr₀`. -/
def exRc : (Fin 3 → ℝ) → (Fin 4 → ℝ) → Fin 4 → ℝ := fun dr _ _ => dr 0

end

/-- C9, counterexample.  The CEM search evaluates rotation-vector
perturbations **outside** the configured per-axis half-range: with half-range
`2` per axis (so `sigma0 = [1, 1, 1]`) and a Gaussian draw of `5` (5σ), the
single first-iteration candidate is `dr = [5, 5, 5]` (second conjunct), the
cost function is invoked on it — the run returns cost `5 = |dr₀|` and payload
`[5]`, both carrying the out-of-range coordinate — yet `|5| ≤ 2` is false
(third conjunct). -/
theorem cem_dr_bounded_cex :
    compute_ik_opt exOpt exB exRc (fun _ => 0) (fun _ => 0) (fun _ _ _ => 5)
      = .ok ([5], 5, 1, [1, 1, 1])
    ∧ cemRows exOpt.opt [0, 0, 0] exOpt.opt.sigma0 (fun _ _ _ => 5) 0 = [[5, 5, 5]]
    ∧ ¬ (|(5 : ℝ)| ≤ 2) := by
  have hsig : exOpt.opt.sigma0 = [1, 1, 1] := by
    show ([2, 2, 2] : List ℝ).map (fun x => x / 2) = [1, 1, 1]
    norm_num
  have hrow : sampleRow [0, 0, 0] [1, 1, 1] (fun _ => (5 : ℝ)) = [5, 5, 5] := by
    rw [sampleRow]
    norm_num [List.range_succ]
  have hrows : cemRows exOpt.opt [0, 0, 0] exOpt.opt.sigma0 (fun _ _ _ => 5) 0
      = [[5, 5, 5]] := by
    rw [cemRows, hsig]
    show (List.range 1).map _ = _
    rw [show List.range 1 = [0] by norm_num [List.range_succ], List.map_cons,
      List.map_nil, hrow]
  have hfunc : solve_ik exOpt exB exRc (fun _ => 0) (fun _ => 0)
      (fun i => ([5, 5, 5] : List ℝ).getD i 0) = (5, [5]) := by
    rw [solve_ik]
    have hq : (exB.compute_ik (fun _ => 0)
        (exRc (fun i => ([5, 5, 5] : List ℝ).getD i 0) (fun _ => 0))).1 = [5] := rfl
    rw [hq]
    have hfk1 : (exB.compute_fk [5]).1 = fun i => if i = 0 then 5 else 0 := rfl
    rw [hfk1]
    have hn : norm3 (fun i => (0 : ℝ) - if i = 0 then 5 else 0) = 5 := by
      rw [norm3, Fin.sum_univ_three]
      rw [if_pos rfl, if_neg (by decide : ¬((1 : Fin 3) = 0)),
        if_neg (by decide : ¬((2 : Fin 3) = 0))]
      rw [show ((0 : ℝ) - 5) ^ 2 + (0 - 0) ^ 2 + (0 - 0) ^ 2 = 5 ^ 2 by ring,
        Real.sqrt_sq (by norm_num : (0 : ℝ) ≤ 5)]
    rw [hn]
    show (exOpt.pos_wt * 5 + exOpt.ori_wt * _, _) = _
    rw [show exOpt.pos_wt = 1 from rfl, show exOpt.ori_wt = 0 from rfl]
    norm_num
  have hcosts : cemCosts (fun dr => solve_ik exOpt exB exRc (fun _ => 0) (fun _ => 0)
        fun i => dr.getD i 0) (cemRows exOpt.opt [0, 0, 0] exOpt.opt.sigma0
        (fun _ _ _ => 5) 0) = [5] := by
    rw [hrows, cemCosts, List.map_cons, List.map_nil]
    rw [hfunc]
  have haux : cemAux (fun dr => solve_ik exOpt exB exRc (fun _ => 0) (fun _ => 0)
        fun i => dr.getD i 0) (cemRows exOpt.opt [0, 0, 0] exOpt.opt.sigma0
        (fun _ _ _ => 5) 0) = [[5]] := by
    rw [hrows, cemAux, List.map_cons, List.map_nil]
    rw [hfunc]
  have hbest : cemBest ([5] : List ℝ) = 0 := by
    rw [cemBest, npArgsort,
      show List.range ([5] : List ℝ).length = [0] by norm_num [List.range_succ]]
    simp
  have hloop : cemLoop exOpt.opt (fun dr => solve_ik exOpt exB exRc (fun _ => 0)
        (fun _ => 0) fun i => dr.getD i 0) (fun _ _ _ => 5) 0 [0, 0, 0]
        exOpt.opt.sigma0 = (5, [5], 1, [1, 1, 1]) := by
    rw [cemLoop, hcosts, hbest]
    rw [if_pos (Or.inr (Or.inl (by
      norm_num [List.getD, show exOpt.opt.cost_tol = 10 from rfl] :
        ([5] : List ℝ).getD 0 0 ≤ exOpt.opt.cost_tol)))]
    rw [haux, hsig]
    norm_num [List.getD]
  have hopt : exOpt.opt.optimize (fun dr => solve_ik exOpt exB exRc (fun _ => 0)
        (fun _ => 0) fun i => dr.getD i 0) [0, 0, 0] (fun _ _ _ => 5)
      = .ok (5, [5], 1, [1, 1, 1]) := by
    rw [CEM.optimize, if_pos (by rw [hsig]; rfl : ([0, 0, 0] : List ℝ).length
      = exOpt.opt.sigma0.length), hloop]
  refine ⟨?_, hrows, by norm_num⟩
  rw [compute_ik_opt, hopt]

/-- C9, amended.  The search around the desired orientation is *not* hard
bounded by the per-axis half-range: each candidate coordinate is drawn as
`mu[k] + sigma[k] * g` with a Gaussian draw `g`, where the optimizer configures
the initial std as half-range/2 (`sigma0 = ori_error_range / 2`), so any
coordinate can exceed the half-range whenever `|g| > 2`. -/
theorem cem_sampling_law (o : PositionIKOptimizer) (mu sigma : List ℝ)
    (g : ℕ → ℝ) (k : ℕ) (hk : k < mu.length) :
    (sampleRow mu sigma g).getD k 0 = mu.getD k 0 + sigma.getD k 0 * g k
    ∧ o.opt.sigma0 = o.ori_error_range.map fun x => x / 2 := by
  refine ⟨?_, rfl⟩
  rw [sampleRow, List.getD_eq_getElem _ _ (by simpa using hk),
    List.getElem_map, List.getElem_range]

/-- C9, witness. -/
theorem cem_sampling_law_witness :
    (0 : ℕ) < ([0] : List ℝ).length
    ∧ (sampleRow [0] [1] (fun _ => 5)).getD 0 0
        = ([0] : List ℝ).getD 0 0 + ([1] : List ℝ).getD 0 0 * 5
    ∧ exOpt.opt.sigma0 = exOpt.ori_error_range.map fun x => x / 2 :=
  ⟨by norm_num,
   (cem_sampling_law exOpt [0] [1] (fun _ => 5) 0 (by norm_num)).1,
   (cem_sampling_law exOpt [0] [1] (fun _ => 5) 0 (by norm_num)).2⟩

end HomeRobot
